import Mathlib

/-!
Verification of the transform-text repository's chunked-transport codec
(`to_qrcode.py`, `from_number.py`, `from_qr.py`) and text-frame pipeline
(`to_text.py`, `from_text.py`) against its natural-language specification.

Bytes are modelled as `Nat` values (< 256 where relevant), byte strings as
`List Nat`, and Python's unbounded integers as `Nat`.  Python loops reading
from a finite stream are modelled with an explicit structural fuel argument
so that every definition evaluates by kernel reduction.
-/

namespace TransformText

/-! ## Python integer primitives -/

/-- Fuel-driven bit length: `bitLenF fuel n` computes the bit length of `n`
provided `n ≤ fuel`.  Models the recursion `bits(n) = bits(n / 2) + 1`. -/
def bitLenF : Nat → Nat → Nat
  | 0, _ => 0
  | fuel + 1, n => if n = 0 then 0 else bitLenF fuel (n / 2) + 1

/-- Python `int.bit_length()`: `0` for `0`, otherwise `floor(log2 n) + 1`. -/
def bitLength (n : Nat) : Nat := bitLenF n n

/-- Python `n.to_bytes(len)` (big-endian, default byte order since 3.11):
exactly `len` bytes, most significant first. -/
def toBytesBE : Nat → Nat → List Nat
  | _, 0 => []
  | n, len + 1 => toBytesBE (n / 256) len ++ [n % 256]

/-- Python code at `from_number.py` line 64 / `from_qr.py` line 59:
`i.to_bytes((i.bit_length() + 7) // 8)` — the minimal unsigned big-endian
byte sequence of `i` (empty for `i = 0`). -/
def pyToBytes (n : Nat) : List Nat := toBytesBE n ((bitLength n + 7) / 8)

/-- Minimal big-endian byte representation, defined by the natural recursion;
proved equal to `pyToBytes` below. -/
def toBytesMin (n : Nat) : List Nat :=
  if h : n = 0 then [] else toBytesMin (n / 256) ++ [n % 256]
  decreasing_by exact Nat.div_lt_self (Nat.pos_of_ne_zero h) (by omega)

/-- Python `int.from_bytes(bs)` (big-endian). -/
def fromBytes (bs : List Nat) : Nat := bs.foldl (fun a b => a * 256 + b) 0

/-- Fuel-driven decimal rendering of a positive integer as ASCII digit
bytes, most significant first; `pyStrF fuel n` is correct for `n ≤ fuel`. -/
def pyStrF : Nat → Nat → List Nat
  | 0, _ => []
  | fuel + 1, n => if n = 0 then [] else pyStrF fuel (n / 10) ++ [n % 10 + 48]

/-- Python `str(n).encode()` for a natural number: its ASCII decimal digits. -/
def pyStr (n : Nat) : List Nat := if n = 0 then [48] else pyStrF n n

/-- Python `int(digits)` on a nonempty all-digit ASCII byte string. -/
def digitsToNat (ds : List Nat) : Nat := ds.foldl (fun a d => a * 10 + (d - 48)) 0

/-! ## Basic facts about bit length -/

theorem bitLenF_zero (f : Nat) : bitLenF f 0 = 0 := by
  cases f <;> simp [bitLenF]

theorem bitLenF_irrel (f1 : Nat) : ∀ f2 n, n ≤ f1 → n ≤ f2 →
    bitLenF f1 n = bitLenF f2 n := by
  induction f1 with
  | zero =>
    intro f2 n h1 _
    interval_cases n
    rw [bitLenF_zero, bitLenF_zero]
  | succ f ih =>
    intro f2 n h1 h2
    by_cases hn : n = 0
    · subst hn; rw [bitLenF_zero, bitLenF_zero]
    · match f2, hn, h2 with
      | 0, hn, h2 => omega
      | g + 1, hn, h2 =>
        simp only [bitLenF, if_neg hn]
        rw [ih g (n / 2) (by omega) (by omega)]

theorem bitLength_zero : bitLength 0 = 0 := rfl

theorem bitLength_rec (n : Nat) (hn : n ≠ 0) :
    bitLength n = bitLength (n / 2) + 1 := by
  unfold bitLength
  match n, hn with
  | n + 1, _ =>
    simp only [bitLenF, if_neg (Nat.succ_ne_zero n)]
    rw [bitLenF_irrel n ((n + 1) / 2) ((n + 1) / 2) (by omega) (le_refl _)]

theorem bitLength_pos (n : Nat) (hn : n ≠ 0) : 1 ≤ bitLength n := by
  rw [bitLength_rec n hn]; omega

/-- For `n ≥ 1`, `2 ^ (bitLength n − 1) ≤ n < 2 ^ bitLength n`. -/
theorem bitLength_bounds (n : Nat) (hn : n ≠ 0) :
    2 ^ (bitLength n - 1) ≤ n ∧ n < 2 ^ bitLength n := by
  induction n using Nat.strong_induction_on with
  | _ n ih =>
    rcases Nat.lt_or_ge n 2 with h2 | h2
    · interval_cases n
      · exact absurd rfl hn
      · exact ⟨by decide, by decide⟩
    · have hm : n / 2 ≠ 0 := by omega
      have hrec := bitLength_rec n hn
      have hb := ih (n / 2) (by omega) hm
      have hp := bitLength_pos (n / 2) hm
      set b := bitLength (n / 2) with hbdef
      have h1 : 2 ^ (b - 1) ≤ n / 2 := hb.1
      have h2' : n / 2 < 2 ^ b := hb.2
      have hpow : 2 ^ b = 2 * 2 ^ (b - 1) := by
        conv_lhs => rw [show b = (b - 1) + 1 by omega]
        rw [pow_succ]
        ring
      rw [hrec]
      constructor
      · have : 2 ^ b ≤ 2 * (n / 2) := by omega
        calc 2 ^ (b + 1 - 1) = 2 ^ b := by norm_num
        _ ≤ 2 * (n / 2) := this
        _ ≤ n := by omega
      · have : n < 2 * (n / 2) + 2 := by omega
        calc n < 2 * (n / 2) + 2 := this
        _ ≤ 2 * 2 ^ b := by omega
        _ = 2 ^ (b + 1) := by rw [pow_succ]; ring

/-- Bit length is determined by the two-power sandwich. -/
theorem bitLength_eq_of_bounds (n b : Nat) (hb : 1 ≤ b)
    (h1 : 2 ^ (b - 1) ≤ n) (h2 : n < 2 ^ b) : bitLength n = b := by
  have hn : n ≠ 0 := by
    have : (1 : Nat) ≤ 2 ^ (b - 1) := Nat.one_le_two_pow
    omega
  have hbl := bitLength_bounds n hn
  have hp := bitLength_pos n hn
  set L := bitLength n with hL
  by_contra hne
  rcases Nat.lt_or_ge L b with hlt | hge
  · have : 2 ^ L ≤ 2 ^ (b - 1) := Nat.pow_le_pow_right (by omega) (by omega)
    omega
  · have hgt : b < L := by omega
    have : 2 ^ b ≤ 2 ^ (L - 1) := Nat.pow_le_pow_right (by omega) (by omega)
    omega

theorem bitLength_le_of_lt_pow (n b : Nat) (h : n < 2 ^ b) :
    bitLength n ≤ b := by
  by_cases hn : n = 0
  · subst hn; simp [bitLength_zero]
  · have := bitLength_bounds n hn
    by_contra hgt
    have : 2 ^ b ≤ 2 ^ (bitLength n - 1) := Nat.pow_le_pow_right (by omega) (by omega)
    omega

theorem bitLength_div256 (n : Nat) (hn : 256 ≤ n) :
    bitLength (n / 256) = bitLength n - 8 := by
  have hn0 : n ≠ 0 := by omega
  obtain ⟨h1, h2⟩ := bitLength_bounds n hn0
  set b := bitLength n with hb
  have h256 : (2 : Nat) ^ 8 = 256 := by norm_num
  have hb9 : 9 ≤ b := by
    by_contra hlt
    have hple : 2 ^ b ≤ 2 ^ 8 := Nat.pow_le_pow_right (by omega) (by omega)
    omega
  have hlow : 2 ^ (b - 9) ≤ n / 256 := by
    have hdiv : 2 ^ (b - 1) / 256 ≤ n / 256 := Nat.div_le_div_right h1
    have heq : 2 ^ (b - 1) / 256 = 2 ^ (b - 9) := by
      have hsplit : 2 ^ (b - 1) = 2 ^ (b - 9) * 256 := by
        rw [← h256, ← pow_add]
        congr 1
        omega
      rw [hsplit, Nat.mul_div_cancel _ (by norm_num)]
    omega
  have hhigh : n / 256 < 2 ^ (b - 8) := by
    have hlt : n < 2 ^ (b - 8) * 256 := by
      have hsplit : 2 ^ b = 2 ^ (b - 8) * 256 := by
        rw [← h256, ← pow_add]
        congr 1
        omega
      omega
    omega
  have hb1 : b - 8 - 1 = b - 9 := by omega
  have := bitLength_eq_of_bounds (n / 256) (b - 8) (by omega)
    (by rw [hb1]; exact hlow) hhigh
  omega

/-! ## `pyToBytes` agrees with the minimal representation -/

theorem byteLen_rec (n : Nat) (hn : n ≠ 0) :
    (bitLength n + 7) / 8 = (bitLength (n / 256) + 7) / 8 + 1 := by
  rcases Nat.lt_or_ge n 256 with h | h
  · have h0 : n / 256 = 0 := by omega
    have hle : bitLength n ≤ 8 := bitLength_le_of_lt_pow n 8 (by norm_num; omega)
    have hpos := bitLength_pos n hn
    rw [h0, bitLength_zero]
    omega
  · have := bitLength_div256 n h
    have h9 : 9 ≤ bitLength n := by
      have h2bd := (bitLength_bounds n (by omega)).2
      by_contra hlt
      have hple : 2 ^ bitLength n ≤ 2 ^ 8 := Nat.pow_le_pow_right (by omega) (by omega)
      have h256 : (2 : Nat) ^ 8 = 256 := by norm_num
      omega
    omega

theorem pyToBytes_eq_toBytesMin (n : Nat) : pyToBytes n = toBytesMin n := by
  induction n using Nat.strong_induction_on with
  | _ n ih =>
    by_cases hn : n = 0
    · subst hn
      have h0 : toBytesMin 0 = [] := by rw [toBytesMin]; simp
      rw [h0]
      rfl
    · have hrec := byteLen_rec n hn
      unfold pyToBytes
      rw [hrec]
      show toBytesBE n ((bitLength (n / 256) + 7) / 8 + 1) = toBytesMin n
      rw [toBytesMin, dif_neg hn]
      have : toBytesBE n ((bitLength (n / 256) + 7) / 8 + 1)
          = toBytesBE (n / 256) ((bitLength (n / 256) + 7) / 8) ++ [n % 256] := rfl
      rw [this, ← pyToBytes, ih (n / 256) (Nat.div_lt_self (by omega) (by omega))]

theorem fromBytes_append_singleton (xs : List Nat) (c : Nat) :
    fromBytes (xs ++ [c]) = fromBytes xs * 256 + c := by
  unfold fromBytes
  rw [List.foldl_append]
  rfl

theorem fromBytes_toBytesMin (n : Nat) : fromBytes (toBytesMin n) = n := by
  induction n using Nat.strong_induction_on with
  | _ n ih =>
    by_cases hn : n = 0
    · subst hn
      rw [toBytesMin]
      simp [fromBytes]
    · rw [toBytesMin, dif_neg hn, fromBytes_append_singleton,
        ih (n / 256) (Nat.div_lt_self (by omega) (by omega))]
      omega

theorem toBytesMin_mulAdd (m c : Nat) (hm : m ≠ 0) (hc : c < 256) :
    toBytesMin (m * 256 + c) = toBytesMin m ++ [c] := by
  have hne : m * 256 + c ≠ 0 := by omega
  rw [toBytesMin, dif_neg hne]
  have hd : (m * 256 + c) / 256 = m := by omega
  have hm2 : (m * 256 + c) % 256 = c := by omega
  rw [hd, hm2]

theorem foldl_fromBytes_ge (ys : List Nat) : ∀ a : Nat,
    a ≤ ys.foldl (fun x b => x * 256 + b) a := by
  induction ys with
  | nil => intro a; simp
  | cons y ys ih =>
    intro a
    calc a ≤ a * 256 + y := by omega
    _ ≤ (y :: ys).foldl (fun x b => x * 256 + b) a := by
      simpa using ih (a * 256 + y)

theorem fromBytes_cons_pos (b : Nat) (ys : List Nat) (hb : 1 ≤ b) :
    1 ≤ fromBytes (b :: ys) := by
  unfold fromBytes
  simp only [List.foldl_cons]
  calc (1 : Nat) ≤ b := hb
  _ = 0 * 256 + b := by omega
  _ ≤ _ := foldl_fromBytes_ge ys (0 * 256 + b)

/-- The crux of per-chunk decoding: reconverting the big-endian value of an
index-prefixed byte sequence yields the same sequence, because the leading
index byte is nonzero. -/
theorem toBytesMin_fromBytes (b : Nat) (bs : List Nat) (hb : 1 ≤ b)
    (hlt : ∀ x ∈ b :: bs, x < 256) : toBytesMin (fromBytes (b :: bs)) = b :: bs := by
  induction bs using List.reverseRecOn with
  | nil =>
    have hblt : b < 256 := hlt b (by simp)
    have : fromBytes [b] = b := by unfold fromBytes; simp
    rw [this, toBytesMin, dif_neg (by omega)]
    have h0 : b / 256 = 0 := by omega
    rw [h0]
    simp [toBytesMin, Nat.mod_eq_of_lt hblt]
  | append_singleton ys c ih =>
    have hys : ∀ x ∈ b :: ys, x < 256 := by
      intro x hx
      apply hlt
      rcases List.mem_cons.mp hx with h | h
      · simp [h]
      · simp [List.mem_append, h]
    have hc : c < 256 := by
      apply hlt
      simp
    have hsplit : b :: (ys ++ [c]) = (b :: ys) ++ [c] := rfl
    rw [hsplit, fromBytes_append_singleton,
      toBytesMin_mulAdd _ c (by have := fromBytes_cons_pos b ys hb; omega) hc,
      ih hys]

/-- For `n ≥ 1` the minimal representation is nonempty, its first byte is in
`1..255`, and every byte is `< 256`. -/
theorem toBytesMin_head (n : Nat) (hn : n ≠ 0) :
    ∃ h t, toBytesMin n = h :: t ∧ 1 ≤ h ∧ h ≤ 255 ∧ ∀ x ∈ t, x ≤ 255 := by
  induction n using Nat.strong_induction_on with
  | _ n ih =>
    rcases Nat.lt_or_ge n 256 with hlt | hge
    · refine ⟨n, [], ?_, by omega, by omega, by simp⟩
      rw [toBytesMin, dif_neg hn]
      have h0 : n / 256 = 0 := by omega
      rw [h0]
      simp [toBytesMin, Nat.mod_eq_of_lt hlt]
    · have hm : n / 256 ≠ 0 := by omega
      obtain ⟨h, t, heq, h1, h2, h3⟩ := ih (n / 256) (Nat.div_lt_self (by omega) (by omega)) hm
      refine ⟨h, t ++ [n % 256], ?_, h1, h2, ?_⟩
      · rw [toBytesMin, dif_neg hn, heq]
        rfl
      · intro x hx
        rcases List.mem_append.mp hx with hx | hx
        · exact h3 x hx
        · simp at hx
          omega

/-! ## Decimal rendering round-trip -/

theorem digitsToNat_append_singleton (xs : List Nat) (c : Nat) :
    digitsToNat (xs ++ [c]) = digitsToNat xs * 10 + (c - 48) := by
  unfold digitsToNat
  rw [List.foldl_append]
  rfl

theorem pyStrF_digits (fuel : Nat) : ∀ n, ∀ d ∈ pyStrF fuel n, 48 ≤ d ∧ d ≤ 57 := by
  induction fuel with
  | zero => intro n d hd; simp [pyStrF] at hd
  | succ f ih =>
    intro n d hd
    by_cases hn : n = 0
    · subst hn; simp [pyStrF] at hd
    · simp only [pyStrF, if_neg hn] at hd
      rcases List.mem_append.mp hd with h | h
      · exact ih (n / 10) d h
      · simp at h
        have : n % 10 < 10 := Nat.mod_lt _ (by omega)
        omega

theorem digitsToNat_pyStrF (fuel : Nat) : ∀ n, n ≤ fuel →
    digitsToNat (pyStrF fuel n) = n := by
  induction fuel with
  | zero =>
    intro n hn
    interval_cases n
    rfl
  | succ f ih =>
    intro n hn
    by_cases h0 : n = 0
    · subst h0; rfl
    · simp only [pyStrF, if_neg h0]
      rw [digitsToNat_append_singleton, ih (n / 10) (by omega)]
      omega

theorem digitsToNat_pyStr (n : Nat) : digitsToNat (pyStr n) = n := by
  by_cases h0 : n = 0
  · subst h0; rfl
  · unfold pyStr
    rw [if_neg h0]
    exact digitsToNat_pyStrF n n (le_refl n)

theorem pyStr_digits (n : Nat) : ∀ d ∈ pyStr n, 48 ≤ d ∧ d ≤ 57 := by
  unfold pyStr
  by_cases h0 : n = 0
  · simp [h0]
  · rw [if_neg h0]
    exact pyStrF_digits n n

theorem pyStr_ne_nil (n : Nat) : pyStr n ≠ [] := by
  unfold pyStr
  by_cases h0 : n = 0
  · simp [h0]
  · rw [if_neg h0]
    match n, h0 with
    | n + 1, _ =>
      simp only [pyStrF, if_neg (Nat.succ_ne_zero n)]
      simp

/-! ## Decode side: `from_number.py` `process_folder` (chunk-codec part)

A raw transport unit is the byte content of one input file.  `_no_digits`
filtering keeps exactly the ASCII digit bytes; `int(digits)` parses them
(`ValueError` on an empty string is a skip); `i.to_bytes(...)` recovers the
index byte and payload; `len(data) > 0` guards the dictionary insert. -/

/-- Byte `b` survives `translate(None, _no_digits)`, i.e. is an ASCII digit. -/
def isDigitByte (b : Nat) : Bool := decide (48 ≤ b ∧ b ≤ 57)

/-- Model of `from_number.py` line 56: keep only ASCII digit bytes of the file. -/
def extractDigits (raw : List Nat) : List Nat := raw.filter isDigitByte

/-- Model of `from_number.py` lines 56-71: digit filtering, integer parsing and
index/payload split for one raw unit.  `none` models both skip paths
(`ValueError` on an empty digit string, and `len(data) = 0` for value 0). -/
def parseUnit (raw : List Nat) : Option (Nat × List Nat) :=
  let ds := extractDigits raw
  if ds.isEmpty then none
  else
    match pyToBytes (digitsToNat ds) with
    | [] => none
    | k :: p => some (k, p)

/-- Python dict assignment `d[k] = v`: replace if present, else append. -/
def dictInsert : List (Nat × List Nat) → Nat → List Nat → List (Nat × List Nat)
  | [], k, v => [(k, v)]
  | (k0, v0) :: rest, k, v =>
    if k0 = k then (k0, v) :: rest else (k0, v0) :: dictInsert rest k v

/-- Python dict lookup `d[k]` (as an option). -/
def dictGet : List (Nat × List Nat) → Nat → Option (List Nat)
  | [], _ => none
  | (k0, v0) :: rest, k => if k0 = k then some v0 else dictGet rest k

/-- Model of `from_number.py` lines 49-74: scan all units into the chunk dictionary
(insertion order = discovery order; a duplicate index overwrites). -/
def scan (units : List (List Nat)) : List (Nat × List Nat) :=
  units.foldl
    (fun d u =>
      match parseUnit u with
      | some (k, p) => dictInsert d k p
      | none => d)
    []

/-- Insertion sort step, ascending. -/
def insertLe (x : Nat) : List Nat → List Nat
  | [] => [x]
  | y :: ys => if x ≤ y then x :: y :: ys else y :: insertLe x ys

/-- Python `sorted` on a list of distinct naturals. -/
def sortNat (l : List Nat) : List Nat := l.foldr insertLe []

/-- Model of `from_number.py` lines 76-91, the chunk-codec part of `process_folder`:
the completeness check and, on success, concatenation of the payloads for
indices `1..N` in ascending order.  The code computes
`set(keys).difference_update(range(1, N + 1))` — the keys *outside* `1..N` —
reports them sorted on stderr and returns 1; otherwise it feeds
`chunk_dict[1] ++ ... ++ chunk_dict[N]` to the decompressor. -/
def decodeUnits (units : List (List Nat)) : Except (List Nat) (List Nat) :=
  let d := scan units
  let n := d.length
  let absent := (d.map Prod.fst).filter (fun k => decide ¬(1 ≤ k ∧ k ≤ n))
  if absent.isEmpty then
    Except.ok ((List.range' 1 n).map (fun i => (dictGet d i).getD [])).flatten
  else
    Except.error (sortNat absent)

/-! ## Encode side: `to_qrcode.py` `main` (chunk loop, lines 354-389)

The loop reads `max_chunk_size`-byte windows from the compressed stream,
errors out once a 256th nonempty window appears, and otherwise renders
`str(int.from_bytes(bytes((file_index,)) + chunk))` for the window. -/

/-- Capacity-sized windows of the stream, by structural fuel
(`fuel ≥ B.length` suffices when `C ≥ 1`; `C = 0` models `read(0) = b''`,
which breaks the loop immediately). -/
def windowsF : Nat → Nat → List Nat → List (List Nat)
  | 0, _, _ => []
  | fuel + 1, c, b => if (b.take c).isEmpty then [] else b.take c :: windowsF fuel c (b.drop c)

/-- The windows of `B` at capacity `C`. -/
def windows (c : Nat) (b : List Nat) : List (List Nat) := windowsF b.length c b

/-- The encode loop of `to_qrcode.py` lines 354-374, with the per-chunk
QR rendering abstracted to the emitted `(index, window)` pair.  Returns the
pairs written before termination and whether the `> 255` error fired. -/
def encodeLoopF : Nat → Nat → Nat → List Nat → List (Nat × List Nat) × Bool
  | 0, _, _, _ => ([], false)
  | fuel + 1, fileIndex, c, rest =>
    let chunk := rest.take c
    if chunk.isEmpty then ([], false)
    else if 255 ≤ fileIndex then ([], true)
    else
      let r := encodeLoopF fuel (fileIndex + 1) c (rest.drop c)
      ((fileIndex + 1, chunk) :: r.1, r.2)

/-- Emitted `(index, window)` pairs and the capacity-exceeded flag
for stream `B` at capacity `C`. -/
def encodePairs (b : List Nat) (c : Nat) : List (Nat × List Nat) × Bool :=
  encodeLoopF b.length 0 c b

/-- Model of `to_qrcode.py` lines 372-374: the transportable representation of one
chunk, `str(int.from_bytes(bytes((file_index,)) + chunk)).encode()`. -/
def encodeChunkStr (i : Nat) (w : List Nat) : List Nat := pyStr (fromBytes (i :: w))

/-- The encode run: the emitted decimal digit strings plus the
capacity-exceeded flag. -/
def encodeRun (b : List Nat) (c : Nat) : List (List Nat) × Bool :=
  let r := encodePairs b c
  (r.1.map (fun p => encodeChunkStr p.1 p.2), r.2)

/-! ## Capacity derivation: `to_qrcode.py` lines 328-334 -/

/-- Constant `_qrcode_infos["M"][1][40]`: the digit budget for level M, version 40. -/
def mDigitsV40 : Nat := 5596

/-- CPython's default `sys.get_int_max_str_digits()` value (the interpreter
int/str conversion guard, never raised by `to_qrcode.py`). -/
def defaultIntMaxStrDigits : Nat := 4300

/-- Model of `to_qrcode.py` lines 329-333: the digit budget, clamped by the
interpreter's digit limit. -/
def maxStrDigits (limit : Nat) : Nat := min mDigitsV40 limit

/-- Model of `to_qrcode.py` line 334:
`int("9" * max_str_digits).bit_length() // 8 - 1`. -/
def maxChunkSize (limit : Nat) : Nat :=
  bitLength (10 ^ maxStrDigits limit - 1) / 8 - 1

/-! ## Windows of the input stream -/

theorem windowsF_succ (f c : Nat) (b : List Nat) :
    windowsF (f + 1) c b =
      if (b.take c).isEmpty then [] else b.take c :: windowsF f c (b.drop c) := rfl

theorem take_isEmpty_false (c : Nat) (b : List Nat) (hc : 1 ≤ c)
    (hb : b ≠ []) : (b.take c).isEmpty = false := by
  cases b with
  | nil => exact absurd rfl hb
  | cons x xs =>
    match c, hc with
    | d + 1, _ => rfl

theorem take_isEmpty_nil (c : Nat) (b : List Nat) (hc : 1 ≤ c)
    (hE : (b.take c).isEmpty = true) : b = [] := by
  by_contra hb
  rw [take_isEmpty_false c b hc hb] at hE
  exact Bool.false_ne_true hE

theorem windowsF_flatten (fuel : Nat) : ∀ c b, b.length ≤ fuel → 1 ≤ c →
    (windowsF fuel c b).flatten = b := by
  induction fuel with
  | zero =>
    intro c b hb _
    have : b = [] := List.length_eq_zero.mp (by omega)
    subst this
    rfl
  | succ f ih =>
    intro c b hb hc
    cases hE : (b.take c).isEmpty with
    | true =>
      have := take_isEmpty_nil c b hc hE
      subst this
      rw [windowsF_succ, hE]
      simp
    | false =>
      rw [windowsF_succ, hE]
      simp only [Bool.false_eq_true, if_false]
      rw [List.flatten_cons, ih c (b.drop c) (by simp; omega) hc,
        List.take_append_drop]

theorem windowsF_mem_sub (fuel : Nat) : ∀ c b w, w ∈ windowsF fuel c b →
    ∀ x ∈ w, x ∈ b := by
  induction fuel with
  | zero => intro c b w hw; simp [windowsF] at hw
  | succ f ih =>
    intro c b w hw x hx
    rw [windowsF_succ] at hw
    cases hE : (b.take c).isEmpty with
    | true => rw [hE] at hw; simp at hw
    | false =>
      rw [hE] at hw
      simp only [Bool.false_eq_true, if_false] at hw
      rcases List.mem_cons.mp hw with h | h
      · subst h
        exact List.mem_of_mem_take hx
      · exact List.mem_of_mem_drop (ih c (b.drop c) w h x hx)

/-- The emitted pairs, as windows labelled with indices `k+1, k+2, ...`. -/
def indexPairs (k : Nat) : List (List Nat) → List (Nat × List Nat)
  | [] => []
  | w :: ws => (k + 1, w) :: indexPairs (k + 1) ws

theorem indexPairs_length (ws : List (List Nat)) : ∀ k,
    (indexPairs k ws).length = ws.length := by
  induction ws with
  | nil => intro k; rfl
  | cons w ws ih => intro k; simp [indexPairs, ih]

theorem indexPairs_map_fst (ws : List (List Nat)) : ∀ k,
    (indexPairs k ws).map Prod.fst = List.range' (k + 1) ws.length := by
  induction ws with
  | nil => intro k; rfl
  | cons w ws ih =>
    intro k
    simp only [indexPairs, List.map_cons, ih (k + 1), List.length_cons]
    rw [List.range'_succ]

theorem indexPairs_getElem_mem (ws : List (List Nat)) : ∀ k j (hj : j < ws.length),
    (k + 1 + j, ws[j]) ∈ indexPairs k ws := by
  induction ws with
  | nil => intro k j hj; simp at hj
  | cons w ws ih =>
    intro k j hj
    cases j with
    | zero => simp [indexPairs]
    | succ j =>
      have := ih (k + 1) j (by simpa using Nat.lt_of_succ_lt_succ hj)
      simp only [indexPairs, List.mem_cons]
      right
      have harith : k + 1 + (j + 1) = k + 1 + 1 + j := by omega
      rw [harith]
      simpa using this

theorem indexPairs_mem_snd (ws : List (List Nat)) : ∀ k i w,
    (i, w) ∈ indexPairs k ws → w ∈ ws := by
  induction ws with
  | nil => intro k i w h; simp [indexPairs] at h
  | cons w0 ws ih =>
    intro k i w h
    rcases List.mem_cons.mp h with h | h
    · simp at h
      simp [h.2]
    · simp [ih (k + 1) i w h]

/-! ## Characterization of the encode loop -/

/-- The encode loop emits the `(index, window)` pairs for the stream's
windows, indexed sequentially from `fileIndex + 1`; if more than
`255 - fileIndex` windows remain it truncates to the first `255 - fileIndex`
of them and reports the capacity-exceeded error. -/
theorem encodeLoopF_succ (f k c : Nat) (rest : List Nat) :
    encodeLoopF (f + 1) k c rest =
      if (rest.take c).isEmpty then ([], false)
      else if 255 ≤ k then ([], true)
      else ((k + 1, rest.take c) :: (encodeLoopF f (k + 1) c (rest.drop c)).1,
        (encodeLoopF f (k + 1) c (rest.drop c)).2) := rfl

theorem encodeLoopF_eq (fuel : Nat) : ∀ k c rest,
    encodeLoopF fuel k c rest =
      if 255 - k < (windowsF fuel c rest).length
      then (indexPairs k ((windowsF fuel c rest).take (255 - k)), true)
      else (indexPairs k (windowsF fuel c rest), false) := by
  induction fuel with
  | zero =>
    intro k c rest
    simp [encodeLoopF, windowsF, indexPairs]
  | succ f ih =>
    intro k c rest
    rw [encodeLoopF_succ, windowsF_succ]
    cases hE : (rest.take c).isEmpty with
    | true => simp [indexPairs]
    | false =>
      simp only [Bool.false_eq_true, if_false]
      by_cases hk : 255 ≤ k
      · have hlen : 255 - k = 0 := by omega
        rw [if_pos hk, hlen]
        have hpos : 0 < (rest.take c :: windowsF f c (rest.drop c)).length := by
          simp
        rw [if_pos hpos]
        simp [indexPairs]
      · rw [if_neg hk, ih (k + 1) c (rest.drop c)]
        set ws2 := windowsF f c (rest.drop c) with hws2
        by_cases hcase : 255 - (k + 1) < ws2.length
        · have hcase2 : 255 - k < (rest.take c :: ws2).length := by
            simp only [List.length_cons]
            omega
          rw [if_pos hcase, if_pos hcase2]
          have htake : (rest.take c :: ws2).take (255 - k)
              = rest.take c :: ws2.take (255 - (k + 1)) := by
            have h1 : 255 - k = (255 - (k + 1)) + 1 := by omega
            rw [h1, List.take_succ_cons]
          rw [htake]
          rfl
        · have hcase2 : ¬(255 - k < (rest.take c :: ws2).length) := by
            simp only [List.length_cons]
            omega
          rw [if_neg hcase, if_neg hcase2]
          rfl

/-! ## Per-chunk parse inverts per-chunk render -/

theorem parseUnit_encodeChunkStr (i : Nat) (w : List Nat) (h1 : 1 ≤ i)
    (h2 : i ≤ 255) (hw : ∀ x ∈ w, x < 256) :
    parseUnit (encodeChunkStr i w) = some (i, w) := by
  have hpos : 1 ≤ fromBytes (i :: w) := fromBytes_cons_pos i w h1
  set n := fromBytes (i :: w) with hn
  have hfilter : extractDigits (pyStr n) = pyStr n := by
    unfold extractDigits
    rw [List.filter_eq_self]
    intro a ha
    have := pyStr_digits n a ha
    simp [isDigitByte]
    omega
  have hne : (pyStr n).isEmpty = false := by
    have := pyStr_ne_nil n
    cases hq : pyStr n with
    | nil => exact absurd hq this
    | cons x xs => rfl
  have hbytes : pyToBytes n = i :: w := by
    rw [pyToBytes_eq_toBytesMin, hn, toBytesMin_fromBytes i w h1]
    intro x hx
    rcases List.mem_cons.mp hx with h | h
    · omega
    · exact hw x h
  unfold parseUnit encodeChunkStr
  simp only [← hn, hfilter, hne, Bool.false_eq_true, if_false, digitsToNat_pyStr, hbytes]

/-! ## Dictionary and scan lemmas -/

/-- Scan of pre-parsed `(index, payload)` pairs, the pure content of `scan`. -/
def scanP (ps : List (Nat × List Nat)) : List (Nat × List Nat) :=
  ps.foldl (fun d p => dictInsert d p.1 p.2) []

theorem scan_foldl_eq (units : List (List Nat)) : ∀ (ps : List (Nat × List Nat))
    (d : List (Nat × List Nat)), units.map parseUnit = ps.map some →
    units.foldl
      (fun d u =>
        match parseUnit u with
        | some (k, p) => dictInsert d k p
        | none => d)
      d
      = ps.foldl (fun d p => dictInsert d p.1 p.2) d := by
  induction units with
  | nil =>
    intro ps d h
    cases ps with
    | nil => rfl
    | cons p ps => simp at h
  | cons u us ih =>
    intro ps d h
    cases ps with
    | nil => simp at h
    | cons p ps =>
      simp only [List.map_cons, List.cons.injEq] at h
      simp only [List.foldl_cons, h.1]
      exact ih ps _ h.2

theorem scan_eq_scanP (units : List (List Nat)) (ps : List (Nat × List Nat))
    (h : units.map parseUnit = ps.map some) : scan units = scanP ps :=
  scan_foldl_eq units ps [] h

theorem map_eq_map_some_of_all_isSome (f : List Nat → Option (Nat × List Nat)) :
    ∀ l : List (List Nat), (∀ u ∈ l, (f u).isSome) →
    l.map f = (l.filterMap f).map some := by
  intro l
  induction l with
  | nil => intro _; rfl
  | cons u us ih =>
    intro h
    have hu : (f u).isSome := h u (by simp)
    obtain ⟨v, hv⟩ := Option.isSome_iff_exists.mp hu
    simp only [List.map_cons, List.filterMap_cons, hv, List.map_cons]
    rw [ih (fun x hx => h x (by simp [hx]))]

theorem filterMap_of_map_eq_map_some (f : List Nat → Option (Nat × List Nat)) :
    ∀ (l : List (List Nat)) (ps : List (Nat × List Nat)),
    l.map f = ps.map some → l.filterMap f = ps := by
  intro l
  induction l with
  | nil =>
    intro ps h
    cases ps with
    | nil => rfl
    | cons p ps => simp at h
  | cons u us ih =>
    intro ps h
    cases ps with
    | nil => simp at h
    | cons p ps =>
      simp only [List.map_cons, List.cons.injEq] at h
      simp only [List.filterMap_cons, h.1]
      rw [ih ps h.2]

theorem dictGet_dictInsert_self (d : List (Nat × List Nat)) (k : Nat)
    (v : List Nat) : dictGet (dictInsert d k v) k = some v := by
  induction d with
  | nil => simp [dictInsert, dictGet]
  | cons e rest ih =>
    by_cases h : e.1 = k
    · simp [dictInsert, dictGet, h]
    · simp [dictInsert, dictGet, h, ih]

theorem dictGet_dictInsert_ne (d : List (Nat × List Nat)) (k k2 : Nat)
    (v : List Nat) (h : k2 ≠ k) : dictGet (dictInsert d k v) k2 = dictGet d k2 := by
  induction d with
  | nil =>
    simp only [dictInsert, dictGet]
    rw [if_neg (Ne.symm h)]
  | cons e rest ih =>
    by_cases he : e.1 = k
    · simp only [dictInsert, if_pos he, dictGet]
      have hne : e.1 ≠ k2 := by rw [he]; exact Ne.symm h
      rw [if_neg hne, if_neg hne]
    · simp only [dictInsert, if_neg he, dictGet]
      by_cases he2 : e.1 = k2
      · rw [if_pos he2, if_pos he2]
      · rw [if_neg he2, if_neg he2, ih]

theorem dictInsert_map_fst_notMem (d : List (Nat × List Nat)) (k : Nat)
    (v : List Nat) (h : k ∉ d.map Prod.fst) :
    (dictInsert d k v).map Prod.fst = d.map Prod.fst ++ [k] := by
  induction d with
  | nil => rfl
  | cons e rest ih =>
    simp only [List.map_cons, List.mem_cons] at h
    push_neg at h
    simp only [dictInsert, if_neg (Ne.symm h.1), List.map_cons]
    rw [ih h.2]
    rfl

theorem foldl_insert_get_notMem (ps : List (Nat × List Nat)) :
    ∀ (d : List (Nat × List Nat)) (k : Nat), k ∉ ps.map Prod.fst →
    dictGet (ps.foldl (fun d p => dictInsert d p.1 p.2) d) k = dictGet d k := by
  induction ps with
  | nil => intro d k _; rfl
  | cons p ps ih =>
    intro d k hk
    simp only [List.map_cons, List.mem_cons] at hk
    push_neg at hk
    simp only [List.foldl_cons]
    rw [ih _ k hk.2, dictGet_dictInsert_ne _ _ _ _ hk.1]

theorem foldl_insert_get_mem (ps : List (Nat × List Nat)) :
    ∀ (d : List (Nat × List Nat)) (k : Nat) (v : List Nat), (k, v) ∈ ps →
    (ps.map Prod.fst).Nodup →
    dictGet (ps.foldl (fun d p => dictInsert d p.1 p.2) d) k = some v := by
  induction ps with
  | nil => intro d k v h _; simp at h
  | cons p ps ih =>
    intro d k v hmem hnd
    simp only [List.map_cons, List.nodup_cons] at hnd
    rcases List.mem_cons.mp hmem with h | h
    · subst h
      simp only [List.foldl_cons]
      rw [foldl_insert_get_notMem ps _ _ hnd.1, dictGet_dictInsert_self]
    · simp only [List.foldl_cons]
      exact ih _ k v h hnd.2

theorem foldl_insert_map_fst (ps : List (Nat × List Nat)) :
    ∀ d : List (Nat × List Nat), (∀ k ∈ ps.map Prod.fst, k ∉ d.map Prod.fst) →
    (ps.map Prod.fst).Nodup →
    (ps.foldl (fun d p => dictInsert d p.1 p.2) d).map Prod.fst
      = d.map Prod.fst ++ ps.map Prod.fst := by
  induction ps with
  | nil => intro d _ _; simp
  | cons p ps ih =>
    intro d hfresh hnd
    simp only [List.map_cons, List.nodup_cons] at hnd
    simp only [List.foldl_cons, List.map_cons]
    rw [ih (dictInsert d p.1 p.2) ?_ hnd.2]
    · rw [dictInsert_map_fst_notMem d p.1 p.2 (hfresh p.1 (by simp))]
      simp
    · intro k hk
      rw [dictInsert_map_fst_notMem d p.1 p.2 (hfresh p.1 (by simp))]
      simp only [List.mem_append, List.mem_singleton]
      push_neg
      constructor
      · exact hfresh k (by simp [hk])
      · intro hkp
        subst hkp
        exact hnd.1 hk

theorem scanP_map_fst (ps : List (Nat × List Nat))
    (hnd : (ps.map Prod.fst).Nodup) : (scanP ps).map Prod.fst = ps.map Prod.fst := by
  unfold scanP
  rw [foldl_insert_map_fst ps [] (by simp) hnd]
  rfl

theorem scanP_length (ps : List (Nat × List Nat))
    (hnd : (ps.map Prod.fst).Nodup) : (scanP ps).length = ps.length := by
  have h1 : ((scanP ps).map Prod.fst).length = (ps.map Prod.fst).length := by
    rw [scanP_map_fst ps hnd]
  simpa using h1

theorem scanP_get (ps : List (Nat × List Nat)) (k : Nat) (v : List Nat)
    (hmem : (k, v) ∈ ps) (hnd : (ps.map Prod.fst).Nodup) :
    dictGet (scanP ps) k = some v :=
  foldl_insert_get_mem ps [] k v hmem hnd

/-! ## C1: round-trip of the chunk codec -/

theorem decodeUnits_ok_form (units : List (List Nat))
    (habs : ((scan units).map Prod.fst).filter
      (fun k => decide ¬(1 ≤ k ∧ k ≤ (scan units).length)) = []) :
    decodeUnits units = Except.ok
      ((List.range' 1 (scan units).length).map
        (fun i => (dictGet (scan units) i).getD [])).flatten := by
  unfold decodeUnits
  simp only [habs, List.isEmpty_nil, if_true]

theorem encodePairs_of_flag_false (b : List Nat) (c : Nat)
    (hflag : (encodePairs b c).2 = false) :
    (encodePairs b c).1 = indexPairs 0 (windows c b) ∧ (windows c b).length ≤ 255 := by
  have heq := encodeLoopF_eq b.length 0 c b
  by_cases hlen : 255 - 0 < (windowsF b.length c b).length
  · rw [if_pos hlen] at heq
    unfold encodePairs at hflag
    rw [heq] at hflag
    simp at hflag
  · rw [if_neg hlen] at heq
    unfold encodePairs windows
    rw [heq]
    exact ⟨rfl, by omega⟩

/-- C1. Splitting a byte stream `B` into `C`-sized windows, prepending the
sequential index byte to each window and rendering each as a decimal digit
string (the encode loop of `to_qrcode.py`), then parsing those digit strings
back into `(index, payload)` pairs and concatenating the payloads for indices
`1..N` in ascending order (`from_number.py`'s `process_folder`), reproduces
`B` byte for byte, for any discovery order of the chunks. -/
theorem chunk_roundtrip (b : List Nat) (c : Nat) (units : List (List Nat))
    (hB : ∀ x ∈ b, x < 256) (hc : 1 ≤ c)
    (hflag : (encodeRun b c).2 = false)
    (hperm : units.Perm (encodeRun b c).1) :
    decodeUnits units = Except.ok b := by
  have hflag2 : (encodePairs b c).2 = false := hflag
  obtain ⟨hpairs, hN⟩ := encodePairs_of_flag_false b c hflag2
  set ws := windows c b with hws
  set pairs := indexPairs 0 ws with hpairsdef
  set n := ws.length with hn
  have hkeys : pairs.map Prod.fst = List.range' 1 n := by
    rw [hpairsdef, indexPairs_map_fst]
  have hchunks : (encodeRun b c).1 = pairs.map (fun p => encodeChunkStr p.1 p.2) := by
    show (encodePairs b c).1.map (fun p => encodeChunkStr p.1 p.2) = _
    rw [hpairs]
  have hcond : ∀ p ∈ pairs, parseUnit (encodeChunkStr p.1 p.2) = some p := by
    intro p hp
    obtain ⟨i, w⟩ := p
    have hi : i ∈ pairs.map Prod.fst := List.mem_map_of_mem Prod.fst hp
    rw [hkeys] at hi
    obtain ⟨j, hj, hij⟩ := List.mem_range'.mp hi
    have hwmem : w ∈ ws := indexPairs_mem_snd ws 0 i w hp
    have hwlt : ∀ x ∈ w, x < 256 := by
      intro x hx
      exact hB x (windowsF_mem_sub b.length c b w hwmem x hx)
    exact parseUnit_encodeChunkStr i w (by omega) (by omega) hwlt
  have hmap : ((encodeRun b c).1).map parseUnit = pairs.map some := by
    rw [hchunks, List.map_map]
    exact List.map_congr_left hcond
  have hall : ∀ u ∈ units, (parseUnit u).isSome := by
    intro u hu
    have hu2 : u ∈ (encodeRun b c).1 := hperm.mem_iff.mp hu
    rw [hchunks] at hu2
    obtain ⟨p, hp, hpe⟩ := List.mem_map.mp hu2
    rw [← hpe, hcond p hp]
    rfl
  set qs := units.filterMap parseUnit with hqs
  have hqs_map : units.map parseUnit = qs.map some :=
    map_eq_map_some_of_all_isSome parseUnit units hall
  have hqs_perm : qs.Perm pairs := by
    have h1 : qs.Perm ((encodeRun b c).1.filterMap parseUnit) :=
      hperm.filterMap parseUnit
    have h2 : (encodeRun b c).1.filterMap parseUnit = pairs :=
      filterMap_of_map_eq_map_some parseUnit _ pairs hmap
    rw [h2] at h1
    exact h1
  have hscan : scan units = scanP qs := scan_eq_scanP units qs hqs_map
  have hkeys_perm : (qs.map Prod.fst).Perm (List.range' 1 n) := by
    rw [← hkeys]
    exact hqs_perm.map Prod.fst
  have hnodup : (qs.map Prod.fst).Nodup :=
    hkeys_perm.nodup_iff.mpr (List.nodup_range' 1 n)
  have hdlen : (scan units).length = n := by
    rw [hscan, scanP_length qs hnodup]
    have := hqs_perm.length_eq
    rw [this, hpairsdef, indexPairs_length]
  have hdkeys : (scan units).map Prod.fst = qs.map Prod.fst := by
    rw [hscan, scanP_map_fst qs hnodup]
  have habs : ((scan units).map Prod.fst).filter
      (fun k => decide ¬(1 ≤ k ∧ k ≤ (scan units).length)) = [] := by
    rw [List.filter_eq_nil_iff]
    intro k hk
    rw [hdkeys] at hk
    have hk2 : k ∈ List.range' 1 n := hkeys_perm.mem_iff.mp hk
    obtain ⟨j, hj, hkj⟩ := List.mem_range'.mp hk2
    rw [hdlen]
    simp only [decide_not]
    have hin : decide (1 ≤ k ∧ k ≤ n) = true := decide_eq_true (by omega)
    rw [hin]
    simp
  rw [decodeUnits_ok_form units habs]
  congr 1
  have hmapws : (List.range' 1 (scan units).length).map
      (fun i => (dictGet (scan units) i).getD []) = ws := by
    apply List.ext_getElem
    · simp [hdlen, hn]
    · intro j hj1 hj2
      have hjn : j < n := by
        simpa [hdlen] using hj2
      rw [List.getElem_map, List.getElem_range']
      have h1j : 1 + 1 * j = 1 + j := by ring
      rw [h1j]
      have hmem : (1 + j, ws[j]) ∈ pairs := by
        have := indexPairs_getElem_mem ws 0 j hjn
        simpa using this
      have hget : dictGet (scan units) (1 + j) = some ws[j] := by
        rw [hscan]
        exact scanP_get qs (1 + j) ws[j] (hqs_perm.mem_iff.mpr hmem) hnodup
      rw [hget]
      rfl
  rw [hmapws, hws]
  exact windowsF_flatten b.length c b (le_refl _) hc

/-- C1 witness. A two-chunk stream at capacity 1, decoded from its chunks
in reversed discovery order, reproduces the stream. -/
theorem chunk_roundtrip_witness :
    decodeUnits [[53, 50, 49], [50, 54, 51]] = Except.ok [7, 9] :=
  chunk_roundtrip [7, 9] 1 [[53, 50, 49], [50, 54, 51]]
    (by decide) (by decide) (by decide) (by decide)

/-! ## C3: index bounds, and failure only after 255 chunks -/

theorem indexPairs_fst_bounds (ws2 : List (List Nat)) (p : Nat × List Nat)
    (hp : p ∈ indexPairs 0 ws2) : 1 ≤ p.1 ∧ p.1 ≤ ws2.length := by
  have hmem : p.1 ∈ (indexPairs 0 ws2).map Prod.fst := List.mem_map_of_mem Prod.fst hp
  rw [indexPairs_map_fst] at hmem
  obtain ⟨j, hj, hpj⟩ := List.mem_range'.mp hmem
  omega

/-- C3, amended. The encode loop never emits a chunk whose index lies
outside `1..255`; but on capacity-exceeded input it fails only after the
first 255 chunks have been emitted (and their images written), not before
any output. -/
theorem encode_index_bounds (b : List Nat) (c : Nat) :
    (∀ p ∈ (encodePairs b c).1, 1 ≤ p.1 ∧ p.1 ≤ 255) ∧
    ((encodePairs b c).2 = true → (encodePairs b c).1.length = 255) := by
  have heq := encodeLoopF_eq b.length 0 c b
  by_cases hlen : 255 - 0 < (windowsF b.length c b).length
  · rw [if_pos hlen] at heq
    constructor
    · intro p hp
      unfold encodePairs at hp
      rw [heq] at hp
      have hb := indexPairs_fst_bounds _ p hp
      have hlt : ((windowsF b.length c b).take (255 - 0)).length ≤ 255 := by
        rw [List.length_take]
        omega
      omega
    · intro _
      unfold encodePairs
      rw [heq]
      simp only [indexPairs_length, List.length_take]
      omega
  · rw [if_neg hlen] at heq
    constructor
    · intro p hp
      unfold encodePairs at hp
      rw [heq] at hp
      have hb := indexPairs_fst_bounds _ p hp
      omega
    · intro hcontra
      unfold encodePairs at hcontra
      rw [heq] at hcontra
      simp at hcontra

set_option maxRecDepth 8000 in
/-- C3 counterexample. A 256-byte stream at capacity 1 needs 256 chunks:
the loop reports capacity-exceeded, yet 255 chunks were already emitted
(and written out) before the failure — refuting "fails before any output is
written". -/
theorem encode_capacity_after_output :
    (encodePairs (List.replicate 256 0) 1).2 = true ∧
      (encodePairs (List.replicate 256 0) 1).1.length = 255 := by
  constructor
  · decide
  · decide

set_option maxRecDepth 8000 in
/-- C3 witness. The amended theorem applied at the 256-byte stream. -/
theorem encode_index_bounds_witness :
    (encodePairs (List.replicate 256 0) 1).1.length = 255 :=
  (encode_index_bounds (List.replicate 256 0) 1).2 (by decide)

/-! ## C4: capacity derivation under the interpreter digit-limit clamp -/

theorem bitLength_ten_pow_4300 : bitLength (10 ^ 4300 - 1) = 14285 :=
  bitLength_eq_of_bounds _ 14285 (by norm_num) (by norm_num) (by norm_num)

theorem bitLength_ten_pow_5596 : bitLength (10 ^ 5596 - 1) = 18590 :=
  bitLength_eq_of_bounds _ 18590 (by norm_num) (by norm_num) (by norm_num)

/-- C4 counterexample. Under CPython's default `int`/`str` digit limit
(4300, never raised by `to_qrcode.py`), the computed payload byte capacity
for level "M" at max version 40 is `floor(bitLength(10^4300−1)/8) − 1 = 1784`,
not the claimed `floor(bitLength(10^5596−1)/8) − 1 = 2322`. -/
theorem capacity_clamped_counterexample :
    maxChunkSize defaultIntMaxStrDigits ≠ bitLength (10 ^ mDigitsV40 - 1) / 8 - 1 := by
  have hmin : maxStrDigits defaultIntMaxStrDigits = 4300 := by
    unfold maxStrDigits mDigitsV40 defaultIntMaxStrDigits
    norm_num
  have h1 : maxChunkSize defaultIntMaxStrDigits = 1784 := by
    unfold maxChunkSize
    rw [hmin, bitLength_ten_pow_4300]
  have h2 : bitLength (10 ^ mDigitsV40 - 1) / 8 - 1 = 2322 := by
    unfold mDigitsV40
    rw [bitLength_ten_pow_5596]
  omega

/-- C4, amended. The computed capacity is
`floor(bitLength(10^d − 1)/8) − 1` with `d = min(5596, L)` where `L` is the
interpreter's digit limit; whenever `L ≥ 5596` (so that the clamp has no
effect) it equals the claimed `floor(bitLength(10^5596 − 1)/8) − 1`. -/
theorem capacity_formula_when_unclamped (limit : Nat) (h : mDigitsV40 ≤ limit) :
    maxChunkSize limit = bitLength (10 ^ mDigitsV40 - 1) / 8 - 1 := by
  unfold maxChunkSize maxStrDigits
  rw [min_eq_left h]

/-- C4 witness. The amended theorem at a digit limit of 5596. -/
theorem capacity_formula_witness :
    maxChunkSize 5596 = bitLength (10 ^ mDigitsV40 - 1) / 8 - 1 :=
  capacity_formula_when_unclamped 5596 (by decide)

/-! ## C5: per-chunk representation round-trip -/

/-- C5. The transportable representation of chunk `i` with payload `p`
is the decimal digit string of the big-endian value of `[i] ++ p`
(`to_qrcode.py` lines 372-374), and converting that digit string back to the
minimal unsigned big-endian byte sequence (`from_number.py` lines 62-64)
recovers first byte `i` and remainder `p`. -/
theorem chunk_repr_roundtrip (i : Nat) (p : List Nat) (h1 : 1 ≤ i) (h2 : i ≤ 255)
    (hp : ∀ x ∈ p, x < 256) :
    encodeChunkStr i p = pyStr (fromBytes (i :: p)) ∧
      pyToBytes (digitsToNat (encodeChunkStr i p)) = i :: p := by
  refine ⟨rfl, ?_⟩
  unfold encodeChunkStr
  rw [digitsToNat_pyStr, pyToBytes_eq_toBytesMin, toBytesMin_fromBytes i p h1]
  intro x hx
  rcases List.mem_cons.mp hx with h | h
  · omega
  · exact hp x h

/-- C5 witness. Chunk index 2 with payload `[5]`: value 517, digit string
"517", converted back to bytes `[2, 5]`. -/
theorem chunk_repr_roundtrip_witness :
    pyToBytes (digitsToNat (encodeChunkStr 2 [5])) = [2, 5] :=
  (chunk_repr_roundtrip 2 [5] (by decide) (by decide) (by decide)).2

/-! ## C2: the completeness check fires, but reports the wrong indices -/

/-- C2, the code bug evaluated at the failing input. Scanning two units with
chunk indices 1 and 3 (`"263"` → `(1, [7])`, `"777"` → `(3, [9])`): index 2 is
missing from `{1, .., N}` with `N = 2`, and decode correctly fails without
output — but the reported list is `[3]`, the *present* key outside `1..N`
(`set(keys).difference_update(range(1, N+1))` has the difference backwards),
not the missing-index list `[2]` that the claim and the `"Need QR image"`
message promise. -/
theorem completeness_misdiagnosis :
    decodeUnits [[50, 54, 51], [55, 55, 55]] = Except.error [3] ∧
      ([3] : List Nat) ≠ [2] :=
  ⟨rfl, by decide⟩

/-! ## C9: duplicate indices are silently last-wins -/

/-- C9. When two scanned units parse to the same chunk index, no error is
raised: the later unit's payload overwrites the earlier one, and (for index 1
forming the complete set `{1}`) the completeness check passes and
reconstruction proceeds with the payload stored last. -/
theorem duplicate_last_wins (u1 u2 : List Nat) (i : Nat) (p1 p2 : List Nat)
    (h1 : parseUnit u1 = some (i, p1)) (h2 : parseUnit u2 = some (i, p2)) :
    dictGet (scan [u1, u2]) i = some p2 ∧
      (i = 1 → decodeUnits [u1, u2] = Except.ok p2) := by
  have hs : scan [u1, u2] = [(i, p2)] := by
    unfold scan
    simp only [List.foldl_cons, List.foldl_nil, h1, h2]
    simp [dictInsert]
  constructor
  · rw [hs]
    simp [dictGet]
  · intro hi
    subst hi
    have habs : ((scan [u1, u2]).map Prod.fst).filter
        (fun k => decide ¬(1 ≤ k ∧ k ≤ (scan [u1, u2]).length)) = [] := by
      rw [hs]
      simp
    rw [decodeUnits_ok_form [u1, u2] habs, hs]
    simp [List.range', dictGet]

/-- C9 witness. Units `"263"` and `"265"` both parse to index 1 (payloads
`[7]` and `[9]`): decode succeeds and reconstructs from the later payload. -/
theorem duplicate_last_wins_witness :
    decodeUnits [[50, 54, 51], [50, 54, 53]] = Except.ok [9] :=
  (duplicate_last_wins [50, 54, 51] [50, 54, 53] 1 [7] [9]
    (by decide) (by decide)).2 rfl

/-! ## C10: every stored chunk key lies in 1..255 -/

theorem parseUnit_key_bounds (u : List Nat) (k : Nat) (p : List Nat)
    (h : parseUnit u = some (k, p)) : 1 ≤ k ∧ k ≤ 255 := by
  unfold parseUnit at h
  by_cases hE : (extractDigits u).isEmpty
  · rw [if_pos hE] at h
    exact absurd h (by simp)
  · rw [if_neg hE] at h
    set m := digitsToNat (extractDigits u) with hm
    cases hpb : pyToBytes m with
    | nil => rw [hpb] at h; exact absurd h (by simp)
    | cons k0 p0 =>
      rw [hpb] at h
      simp only [Option.some.injEq, Prod.mk.injEq] at h
      have hm0 : m ≠ 0 := by
        intro h0
        rw [h0] at hpb
        exact absurd hpb (by simp [pyToBytes, bitLength, bitLenF, toBytesBE])
      obtain ⟨hh, tt, heq, hb1, hb2, _⟩ := toBytesMin_head m hm0
      rw [pyToBytes_eq_toBytesMin, heq] at hpb
      simp only [List.cons.injEq] at hpb
      omega

theorem mem_dictInsert_fst (d : List (Nat × List Nat)) (k : Nat) (v : List Nat)
    (k2 : Nat) (h : k2 ∈ (dictInsert d k v).map Prod.fst) :
    k2 ∈ d.map Prod.fst ∨ k2 = k := by
  induction d with
  | nil =>
    simp [dictInsert] at h
    exact Or.inr h
  | cons e rest ih =>
    by_cases he : e.1 = k
    · simp only [dictInsert, if_pos he, List.map_cons, List.mem_cons] at h
      rcases h with h | h
      · exact Or.inl (by simp [h])
      · exact Or.inl (by simp [h])
    · simp only [dictInsert, if_neg he, List.map_cons, List.mem_cons] at h
      rcases h with h | h
      · exact Or.inl (by simp [h])
      · rcases ih h with h2 | h2
        · exact Or.inl (by simp [h2])
        · exact Or.inr h2

theorem scan_fold_key_bounds (units : List (List Nat)) :
    ∀ d : List (Nat × List Nat), (∀ k ∈ d.map Prod.fst, 1 ≤ k ∧ k ≤ 255) →
    ∀ k ∈ (units.foldl
      (fun d u =>
        match parseUnit u with
        | some (k, p) => dictInsert d k p
        | none => d)
      d).map Prod.fst, 1 ≤ k ∧ k ≤ 255 := by
  induction units with
  | nil => intro d hd k hk; exact hd k hk
  | cons u us ih =>
    intro d hd k hk
    simp only [List.foldl_cons] at hk
    cases hp : parseUnit u with
    | none =>
      rw [hp] at hk
      exact ih d hd k hk
    | some kp =>
      rw [hp] at hk
      refine ih (dictInsert d kp.1 kp.2) ?_ k hk
      intro k2 hk2
      rcases mem_dictInsert_fst d kp.1 kp.2 k2 hk2 with h | h
      · exact hd k2 h
      · subst h
        exact parseUnit_key_bounds u kp.1 kp.2 (by rw [hp])

/-- C10. Every key stored in the chunk dictionary after scanning lies in
`1..255`: the parsed integer's minimal big-endian byte sequence has a nonzero
first byte (the integer 0 yields the empty sequence and is skipped), and any
byte is at most 255. -/
theorem scan_keys_bounds (units : List (List Nat)) (k : Nat)
    (hk : k ∈ (scan units).map Prod.fst) : 1 ≤ k ∧ k ≤ 255 :=
  scan_fold_key_bounds units [] (by simp) k hk

/-- C10 witness. Scanning the single unit `"263"` stores key 1, which the
theorem places in `1..255`. -/
theorem scan_keys_bounds_witness :
    1 ∈ (scan [[50, 54, 51]]).map Prod.fst ∧ (1 ≤ 1 ∧ 1 ≤ 255) :=
  ⟨by decide, scan_keys_bounds [[50, 54, 51]] 1 (by decide)⟩

/-! ## Ascii85 encoding (CPython `base64.a85encode`, as called by `to_text.py`)

`a85encode` is called with default options: 4-byte groups become 5 base-85
digits offset by 33, an all-zero full group folds to `z` (byte 122), and a
final partial group of `k` bytes is zero-padded, encoded, and truncated to
`k + 1` characters. -/

/-- One 32-bit group word rendered as Ascii85 characters (with `z` folding). -/
def a85word (w : Nat) : List Nat :=
  if w = 0 then [122]
  else [33 + w / 52200625, 33 + w / 614125 % 85, 33 + w / 7225 % 85,
    33 + w / 85 % 85, 33 + w % 85]

/-- CPython `base64.a85encode(bs)` with default options. -/
def a85encode : List Nat → List Nat
  | b0 :: b1 :: b2 :: b3 :: rest =>
    a85word (b0 * 16777216 + b1 * 65536 + b2 * 256 + b3) ++ a85encode rest
  | [] => []
  | [b0] => (a85word (b0 * 16777216)).take 2
  | [b0, b1] => (a85word (b0 * 16777216 + b1 * 65536)).take 3
  | [b0, b1, b2] => (a85word (b0 * 16777216 + b1 * 65536 + b2 * 256)).take 4

/-! ## C7: the text frame wire format of `to_text.py` -/

/-- Model of `to_text.py` lines 22-27, `encode_write_block`: if at least 4 buffered
bytes are pending, write the Ascii85 encoding of the longest 4-aligned
prefix and keep the remainder.  State is `(written output, pending data)`. -/
def encodeWriteBlock (st : List Nat × List Nat) : List Nat × List Nat :=
  if 4 ≤ st.2.length then
    (st.1 ++ a85encode (st.2.take (st.2.length - st.2.length % 4)),
      st.2.drop (st.2.length - st.2.length % 4))
  else st

/-- The per-file loop of `to_text.py` lines 51-68: each ciphertext piece
(an `encryptor.update(...)` result) is appended to the pending buffer and
flushed through `encode_write_block`. -/
def frameLoop : List (List Nat) → List Nat × List Nat → List Nat × List Nat
  | [], st => st
  | piece :: ps, st => frameLoop ps (encodeWriteBlock (st.1, st.2 ++ piece))

/-- Marker `b"<~"`, written before the loop (`to_text.py` line 49). -/
def startMarker : List Nat := [60, 126]

/-- Marker `b"~>\r\n"`, written after the final flush (`to_text.py` line 70). -/
def endMarkerCRLF : List Nat := [126, 62, 13, 10]

/-- Model of `to_text.py` lines 49-70: the full frame for one input file, given the
ciphertext pieces produced by the encryptor during the loop and the final
`encryptor.finalize()` output. -/
def emitFrame (pieces : List (List Nat)) (finalPiece : List Nat) : List Nat :=
  startMarker ++ (frameLoop pieces ([], [])).1
    ++ a85encode ((frameLoop pieces ([], [])).2 ++ finalPiece) ++ endMarkerCRLF

/-- The wire format asserted by the specification:
`<start-marker><radix85-text>\r\n<end-marker>`. -/
def specFrame (pieces : List (List Nat)) (finalPiece : List Nat) : List Nat :=
  startMarker ++ a85encode (pieces.flatten ++ finalPiece) ++ [13, 10] ++ [126, 62]

theorem a85word_take (w : Nat) : (a85word w).take 5 = a85word w := by
  unfold a85word
  by_cases h : w = 0
  · rw [if_pos h]
    rfl
  · rw [if_neg h]
    rfl

/-- Ascii85 encoding splits over a 4-aligned prefix. -/
theorem a85encode_append : ∀ (xs ys : List Nat), xs.length % 4 = 0 →
    a85encode (xs ++ ys) = a85encode xs ++ a85encode ys
  | [], ys, _ => by simp [a85encode]
  | [a], ys, h => by simp at h
  | [a, b], ys, h => by simp at h
  | [a, b, c], ys, h => by simp at h
  | a :: b :: c :: d :: rest, ys, h => by
    have hrest : rest.length % 4 = 0 := by
      simp only [List.length_cons] at h
      omega
    show a85word _ ++ a85encode (rest ++ ys) = a85encode (a :: b :: c :: d :: rest) ++ _
    rw [a85encode_append rest ys hrest]
    cases rest with
    | nil => simp [a85encode, a85word_take]
    | cons r rs => simp [a85encode]

theorem frameLoop_inv : ∀ (pieces : List (List Nat)) (out data : List Nat),
    data.length < 4 →
    ∃ pre suf, pre ++ suf = data ++ pieces.flatten ∧ pre.length % 4 = 0 ∧
      suf.length < 4 ∧ frameLoop pieces (out, data) = (out ++ a85encode pre, suf)
  | [], out, data, hd => by
    refine ⟨[], data, by simp, by simp, hd, ?_⟩
    simp [frameLoop, a85encode]
  | piece :: ps, out, data, hd => by
    show ∃ pre suf, pre ++ suf = data ++ (piece ++ ps.flatten) ∧ _ ∧ _ ∧
      frameLoop ps (encodeWriteBlock (out, data ++ piece)) = _
    by_cases hlen : 4 ≤ (data ++ piece).length
    · have hsplit : encodeWriteBlock (out, data ++ piece)
          = (out ++ a85encode ((data ++ piece).take
              ((data ++ piece).length - (data ++ piece).length % 4)),
            (data ++ piece).drop
              ((data ++ piece).length - (data ++ piece).length % 4)) := by
        unfold encodeWriteBlock
        rw [if_pos hlen]
      set dp := data ++ piece with hdp
      set cut := dp.length - dp.length % 4 with hcut
      have hdroplen : (dp.drop cut).length < 4 := by
        rw [List.length_drop]
        omega
      obtain ⟨pre, suf, hps, hpre4, hsuf, hfl⟩ :=
        frameLoop_inv ps (out ++ a85encode (dp.take cut)) (dp.drop cut) hdroplen
      refine ⟨dp.take cut ++ pre, suf, ?_, ?_, hsuf, ?_⟩
      · rw [List.append_assoc, hps, ← List.append_assoc, List.take_append_drop,
          hdp, List.append_assoc]
      · rw [List.length_append, List.length_take]
        have : cut ≤ dp.length := by omega
        rw [Nat.min_eq_left this]
        omega
      · rw [hsplit, hfl, a85encode_append (dp.take cut) pre ?_, List.append_assoc]
        rw [List.length_take]
        have : cut ≤ dp.length := by omega
        rw [Nat.min_eq_left this]
        omega
    · have hsplit : encodeWriteBlock (out, data ++ piece) = (out, data ++ piece) := by
        unfold encodeWriteBlock
        rw [if_neg hlen]
      obtain ⟨pre, suf, hps, hpre4, hsuf, hfl⟩ :=
        frameLoop_inv ps out (data ++ piece) (by omega)
      refine ⟨pre, suf, ?_, hpre4, hsuf, ?_⟩
      · rw [hps, List.append_assoc]
      · rw [hsplit, hfl]

/-- C7, amended. Every emitted frame is
`<start-marker><radix85-text><end-marker>\r\n`: the 2-byte end marker `~>`
comes *before* the `\r\n` line terminator, and the radix-85 text is the
encoding of the whole ciphertext. -/
theorem emitFrame_format (pieces : List (List Nat)) (finalPiece : List Nat) :
    emitFrame pieces finalPiece
      = startMarker ++ a85encode (pieces.flatten ++ finalPiece)
        ++ [126, 62] ++ [13, 10] := by
  obtain ⟨pre, suf, hps, hpre4, hsuf, hfl⟩ := frameLoop_inv pieces [] [] (by simp)
  unfold emitFrame
  rw [hfl]
  simp only [List.nil_append] at hps ⊢
  have hflat : pieces.flatten ++ finalPiece = pre ++ (suf ++ finalPiece) := by
    rw [← hps, List.append_assoc]
  rw [hflat, a85encode_append pre (suf ++ finalPiece) hpre4]
  have hend : endMarkerCRLF = [126, 62] ++ [13, 10] := rfl
  rw [hend]
  simp [List.append_assoc]

/-- C7 counterexample. For a 16-byte ciphertext the emitted frame ends
with `~>\r\n`, not with `\r\n~>` as the claimed wire format
`<start-marker><radix85-text>\r\n<end-marker>` requires. -/
theorem emitFrame_ne_specFrame :
    emitFrame [List.replicate 16 0] [] ≠ specFrame [List.replicate 16 0] [] := by
  decide

/-! ## C6: a frame failure aborts the whole text-decode loop -/

/-- Python `line.rstrip(b"\r\n")`. -/
def rstripCRLF (l : List Nat) : List Nat :=
  (l.reverse.dropWhile (fun b => b == 13 || b == 10)).reverse

/-- Value of a 5-character Ascii85 group. -/
def a85groupVal (g : List Nat) : Nat := g.foldl (fun a c => a * 85 + (c - 33)) 0

/-- The 4 bytes of a 32-bit group word, big-endian. -/
def wordBytes (w : Nat) : List Nat :=
  [w / 16777216 % 256, w / 65536 % 256, w / 256 % 256, w % 256]

/-- Core of CPython `base64.a85decode` (default options): iterate characters,
accept `!`..`u` into the current group (flushing every 5 as 4 bytes), accept
`z` only between groups (4 zero bytes), skip ASCII whitespace, reject
anything else; a final partial group of `k` chars is padded with `u` and
contributes its first `k - 1` bytes; a group value `≥ 2^32` is an error. -/
def a85decodeCore : List Nat → List Nat → Except Unit (List Nat)
  | curr, [] =>
    if curr.isEmpty then Except.ok []
    else
      let w := a85groupVal (curr ++ List.replicate (5 - curr.length) 117)
      if 4294967296 ≤ w then Except.error ()
      else Except.ok ((wordBytes w).take (curr.length - 1))
  | curr, x :: xs =>
    if x = 122 then
      if curr.isEmpty then
        match a85decodeCore [] xs with
        | Except.ok r => Except.ok ([0, 0, 0, 0] ++ r)
        | Except.error e => Except.error e
      else Except.error ()
    else if 33 ≤ x ∧ x ≤ 117 then
      if curr.length = 4 then
        let w := a85groupVal (curr ++ [x])
        if 4294967296 ≤ w then Except.error ()
        else
          match a85decodeCore [] xs with
          | Except.ok r => Except.ok (wordBytes w ++ r)
          | Except.error e => Except.error e
      else a85decodeCore (curr ++ [x]) xs
    else if x = 32 ∨ x = 9 ∨ x = 10 ∨ x = 13 ∨ x = 11 ∨ x = 12 then
      a85decodeCore curr xs
    else Except.error ()

/-- CPython `base64.a85decode(b, adobe=True)` as called at `from_text.py` line 45: the input
must end with `~>` or the frame is a `ValueError`; a leading `<~` is
stripped if present. -/
def a85decodeAdobe (b : List Nat) : Except Unit (List Nat) :=
  if 2 ≤ b.length ∧ b.drop (b.length - 2) = [126, 62] then
    a85decodeCore []
      (if b.take 2 = [60, 126] then (b.drop 2).take (b.length - 4)
       else b.take (b.length - 2))
  else Except.error ()

/-- One frame of `from_text.py` lines 41-57: strip the line terminator,
Ascii85-decode the adobe-framed payload, then run the remaining stages.
`tail` abstracts the AES-CTR decryption, PKCS7 unpadding and LZMA
decompression stages (external primitives, with fresh state per frame). -/
def decodeFrame (tail : List Nat → Except Unit (List Nat))
    (line : List Nat) : Except Unit (List Nat) :=
  match a85decodeAdobe (rstripCRLF line) with
  | Except.ok ct => tail ct
  | Except.error e => Except.error e

/-- The `for i, line in enumerate(stdin.buffer)` loop of `from_text.py`:
frames are decoded in order with no exception handler, so the first failing
frame terminates the process.  Returns the outputs of the completed frames,
the number of frames attempted, and whether the loop aborted. -/
def runFrames (dec : List Nat → Except Unit (List Nat)) :
    List (List Nat) → List (List Nat) × Nat × Bool
  | [] => ([], 0, false)
  | l :: ls =>
    match dec l with
    | Except.ok o =>
      (o :: (runFrames dec ls).1, (runFrames dec ls).2.1 + 1, (runFrames dec ls).2.2)
    | Except.error _ => ([], 1, true)

/-- C6, amended. A padding-validation, radix-85 or checksum failure in
one frame is fatal for the whole batch, not for that frame only: the frames
before the first failing line each produce their artifact, the failing line
is the last one attempted, and every later frame is never processed. -/
theorem frame_failure_aborts (dec : List Nat → Except Unit (List Nat)) :
    ∀ (pre : List (List Nat)) (bad : List Nat) (post : List (List Nat)),
    (∀ l ∈ pre, ∃ o, dec l = Except.ok o) → dec bad = Except.error () →
    (runFrames dec (pre ++ bad :: post)).1.length = pre.length ∧
      (runFrames dec (pre ++ bad :: post)).2 = (pre.length + 1, true) := by
  intro pre
  induction pre with
  | nil =>
    intro bad post _ hbad
    simp [List.nil_append, runFrames, hbad]
  | cons l pre ih =>
    intro bad post hpre hbad
    obtain ⟨o, ho⟩ := hpre l (by simp)
    obtain ⟨hih1, hih2⟩ := ih bad post (fun x hx => hpre x (by simp [hx])) hbad
    have h21 : (runFrames dec (pre ++ bad :: post)).2.1 = pre.length + 1 := by
      rw [hih2]
    have h22 : (runFrames dec (pre ++ bad :: post)).2.2 = true := by
      rw [hih2]
    simp only [List.cons_append, runFrames, ho]
    constructor
    · simp [hih1]
    · simp [h21, h22]

/-- C6 counterexample. With the line `"x"` (not a valid adobe-framed
Ascii85 payload) followed by the decodable line `"<~~>"`: the run aborts on
frame 0 after attempting only 1 of the 2 frames and the second frame yields
no artifact — even though the second line decodes fine on its own. -/
theorem frame_failure_aborts_counterexample :
    runFrames (decodeFrame Except.ok) [[120], [60, 126, 126, 62]] = ([], 1, true) ∧
      runFrames (decodeFrame Except.ok) [[60, 126, 126, 62]] = ([[]], 1, false) :=
  ⟨rfl, rfl⟩

/-- C6 witness. The amended theorem at the concrete two-line batch. -/
theorem frame_failure_aborts_witness :
    (runFrames (decodeFrame Except.ok) ([] ++ [120] :: [[60, 126, 126, 62]])).1.length = 0 ∧
      (runFrames (decodeFrame Except.ok) ([] ++ [120] :: [[60, 126, 126, 62]])).2
        = (0 + 1, true) :=
  frame_failure_aborts (decodeFrame Except.ok) [] [120] [[60, 126, 126, 62]]
    (by simp) rfl

/-! ## C8: deferred directory metadata restoration
(`from_number.py` lines 111-122, `from_qr.py` lines 108-119) -/

/-- Python exception kinds relevant to the metadata pass. -/
inductive PyErr where
  | attributeError
  | extractError
deriving DecidableEq

/-- Lexicographic byte-string comparison (Python `str` `<` on names). -/
def lexLtBytes : List Nat → List Nat → Bool
  | [], [] => false
  | [], _ :: _ => true
  | _ :: _, [] => false
  | a :: as, b :: bs => if a < b then true else if b < a then false else lexLtBytes as bs

/-- Insertion step of a stable descending sort. -/
def insDesc (x : List Nat) : List (List Nat) → List (List Nat)
  | [] => [x]
  | y :: ys => if lexLtBytes y x then x :: y :: ys else y :: insDesc x ys

/-- Model of `dir_tarinfo_list.sort(key=lambda a: a.name, reverse=True)`. -/
def sortRevLex (l : List (List Nat)) : List (List Nat) := l.foldr insDesc []

/-- Model of `from_number.py` lines 117-120 for one directory: the code invokes
`temp_file.chown(...)` / `.utime` / `.chmod` — but `temp_file` is the
temporary *file object*, which (per the Python standard library) has no
such attributes, so the very first call raises `AttributeError`.
(The archive object `archive_file` is the one with those methods.) -/
def applyDirMeta (d : List Nat) : Except PyErr Unit :=
  Except.error PyErr.attributeError

/-- The metadata loop body: `except tarfile.ExtractError: pass` absorbs only
`ExtractError`; any other exception propagates and aborts the pass. -/
def metaLoop : List (List Nat) → Except PyErr Unit
  | [] => Except.ok ()
  | d :: ds =>
    match applyDirMeta d with
    | Except.ok _ => metaLoop ds
    | Except.error PyErr.extractError => metaLoop ds
    | Except.error e => Except.error e

/-- The deferred directory-metadata pass: reverse-lexicographically sorted
directory names, each given to the guarded metadata application. -/
def dirMetadataPass (dirs : List (List Nat)) : Except PyErr Unit :=
  metaLoop (sortRevLex dirs)

/-- C8, the code bug evaluated at the failing input. For any archive with a
directory entry (here a single directory named `"d"`), the metadata pass
raises `AttributeError` — `temp_file.chown` does not exist, and the handler
catches only `tarfile.ExtractError` — so extraction fails instead of
ignoring metadata-application errors as the claim (and the code's own
comment "Set correct owner, mtime and filemode on directories") intend. -/
theorem dir_metadata_crashes :
    dirMetadataPass [[100]] = Except.error PyErr.attributeError ∧
      (Except.error PyErr.attributeError : Except PyErr Unit) ≠ Except.ok () :=
  ⟨rfl, by intro h; cases h⟩

end TransformText
